import Mathlib

/-!
# The `drawbbox` filter (`libavfilter/vf_drawbbox.c`): detection-log index and frame cursor

A shallow embedding of the two functions that carry the filter's logic:

* `init` (lines 94–180): reads the frame count from the last 90 bytes of the
  detection log, allocates `frpos` and fills it in one sequential pass;
* `filter_frame` (lines 269–324): looks the frame up in `frpos`, seeks, and
  walks the log forward drawing every record of the frame.

## Modelling conventions

* The opened log `s->afile` is the list of its bytes (`Bytes`); a stream
  position is a byte offset.  The file is assumed to contain no NUL byte.
* `sscanf(p, "%f %n", &v, &filled)` belongs to the C library.  Every function
  below takes it as the argument `scan : Scanner`: `scan p = some (v, n)` when
  the conversion succeeds, storing `v` and consuming `n` characters, and
  `scan p = none` when it fails and stores nothing.  `scanDecimal` is a
  reading of it for plain decimal text, used to run the model on concrete logs.
* A `float` is modelled by the rational number it denotes (`ℚ`); NaN,
  infinities and rounding are outside the model.  `int` values are modelled
  by `Int` without wrap-around (signed overflow is undefined in C).
* Uninitialised storage is made explicit: the bytes of `line` that `fread`
  did not fill are the argument `junk`, an unassigned `currfr` in `init` is
  the argument `currfr0`, and a loop-body variable of `filter_frame` that is
  used without having been assigned ends the trace with
  `Outcome.uninitialised`.
* `init` is modelled from the point where the colour has been parsed and the
  file has been opened (lines 104–126 return before touching the log);
  `av_malloc` is taken to succeed.
-/

namespace DrawBBox

/-- The bytes of a file or of a C string (without its terminating NUL). -/
abbrev Bytes := List Char

/-- One `sscanf(p, "%f %n", &v, &filled)` (or `sscanf(p, "%f", &v)`): the
value stored and the number of characters consumed, `none` when the
conversion fails. -/
abbrev Scanner := Bytes → Option (ℚ × Nat)

/-- C conversion `(int) x` of a float: truncation toward zero. -/
def toInt (x : ℚ) : Int := Int.tdiv x.num x.den

/-! ## C library pieces -/

/-- The characters `fgets` stores when at most `n` characters may be read:
it stops after a line break, after `n` characters, or at end of file. -/
def fgetsAux : Nat → Bytes → Bytes
  | 0, _ => []
  | _ + 1, [] => []
  | n + 1, c :: cs => if c = '\n' then [c] else c :: fgetsAux n cs

/-- Call `fgets(line, size, afile)` with the stream at byte offset `pos`:
`none` is the NULL result at end of file (the buffer is then left
untouched). -/
def fgets (size : Nat) (file : Bytes) (pos : Nat) : Option Bytes :=
  match fgetsAux (size - 1) (file.drop pos) with
  | [] => none
  | c :: cs => some (c :: cs)

/-- Call `strchr(s, c)`: the suffix of `s` starting at the first `c`, `none`
for NULL. -/
def strchr : Bytes → Char → Option Bytes
  | [], _ => none
  | c :: cs, x => if c = x then some (c :: cs) else strchr cs x

/-! ## `init` -/

/-- Outcome of the trailer phase of `init` (lines 128–141). -/
inductive Trailer where
  /-- `strchr` returned NULL; `lptr++` and the `sscanf` through it are undefined. -/
  | undefined
  /-- `return AVERROR(EINVAL)` at line 138. -/
  | einval
  /-- Value of `nof`, and the contents left in `line`. -/
  | frames (nof : Int) (line : Bytes)
  deriving DecidableEq

/-- Lines 128–141 of `init`.  `fseek(-90, SEEK_END)` fails on a file shorter
than 90 bytes and leaves the stream at offset 0, so in both cases `fread`
delivers `file.drop (file.length - 90)`; the rest of the 90 bytes of `line`
keeps its previous contents `junk`. -/
def readTrailer (scan : Scanner) (junk : Bytes) (currfr0 : ℚ) (file : Bytes) : Trailer :=
  let tail := file.drop (file.length - 90)
  let line := tail ++ junk.take (90 - tail.length)
  match strchr line '\n' with
  | none => Trailer.undefined
  | some p =>
    let lptr := p.tail
    let currfr := match scan lptr with
      | some (v, _) => v
      | none => currfr0
    if toInt currfr ≤ 0 then Trailer.einval
    else Trailer.frames (toInt currfr) line

/-- The variables live in the scanning loop of `init` (lines 150–175). -/
structure ScanState where
  /-- Stream position of `s->afile`. -/
  pos : Nat
  /-- Contents of the buffer `line`. -/
  line : Bytes
  currfr : ℚ
  last : Int
  lines : Nat
  frpos : List Int
  deriving DecidableEq

/-- One pass through the body of `while (currfr < nof)` (lines 156–173).
The result is `Sum.inl` when the body leaves the loop by `break`, with the
state at that point. -/
def scanStep (scan : Scanner) (file : Bytes) (offset nof : Int) (st : ScanState) :
    ScanState ⊕ ScanState :=
  let pos : Int := st.pos
  let got := fgets 256 file st.pos
  let line := got.getD st.line
  let currfr := match scan line with
    | some (v, _) => v
    | none => st.currfr
  let fr := toInt currfr - 1 + offset
  if fr ≥ nof then
    Sum.inl { st with pos := st.pos + (got.getD []).length, line := line, currfr := currfr }
  else
    let frpos := if st.last ≠ fr ∧ fr ≥ 0 then st.frpos.set fr.toNat pos else st.frpos
    Sum.inr { pos := st.pos + (got.getD []).length, line := line, currfr := currfr,
              last := fr, lines := st.lines + 1, frpos := frpos }

/-- The loop `while (currfr < nof) { ... }` of `init`, allowed at most `fuel`
passes through its body: the state in which the loop is left, `none` when
`fuel` passes do not bring it to its end. -/
def scanLoop (scan : Scanner) (file : Bytes) (offset nof : Int) : Nat → ScanState → Option ScanState
  | 0, st => if st.currfr < nof then none else some st
  | fuel + 1, st =>
    if st.currfr < nof then
      match scanStep scan file offset nof st with
      | Sum.inl st1 => some st1
      | Sum.inr st1 => scanLoop scan file offset nof fuel st1
    else some st

/-- Lines 143–175 of `init`: `frpos` is allocated with `nof` entries `-1`,
`currfr = 0.0f`, `lines = 0`, `last = 0`, the stream is at offset 0 and `line`
still holds what the trailer phase left in it. -/
def buildIndex (scan : Scanner) (file : Bytes) (offset nof : Int) (line0 : Bytes) (fuel : Nat) :
    Option ScanState :=
  scanLoop scan file offset nof fuel
    { pos := 0, line := line0, currfr := 0, last := 0, lines := 0,
      frpos := List.replicate nof.toNat (-1) }

/-- Result of `init`. -/
inductive InitResult where
  /-- Undefined behaviour in the trailer phase. -/
  | undefined
  /-- `return AVERROR(EINVAL)`. -/
  | einval
  /-- `return 0` with `s->frpos` filled. -/
  | ok (frpos : List Int)
  deriving DecidableEq

/-- Function `init` from line 128 on; `none` when the scanning loop is still
running after `fuel` passes. -/
def init (scan : Scanner) (junk : Bytes) (currfr0 : ℚ) (offset : Int) (file : Bytes) (fuel : Nat) :
    Option InitResult :=
  match readTrailer scan junk currfr0 file with
  | Trailer.undefined => some InitResult.undefined
  | Trailer.einval => some InitResult.einval
  | Trailer.frames nof line =>
    (buildIndex scan file offset nof line fuel).map (fun st => InitResult.ok st.frpos)

/-! ## `filter_frame` -/

/-- What the body of the `while (fgets(...))` loop of `filter_frame` does
with one line. -/
inductive Outcome where
  /-- Lines 299–302: the frame number differs, `break`. -/
  | mismatch
  /-- Lines 306–307: `prob < s->thresh`, `continue`. -/
  | belowThreshold (prob : ℚ)
  /-- Lines 309–320: the box and its label are drawn. -/
  | drawn (prob xmin ymin xmax ymax : ℚ)
  /-- A conversion stored nothing and the variable is used unassigned. -/
  | uninitialised
  deriving DecidableEq

/-- Lines 304–320 of `filter_frame`: the probability and box fields of a line
that passed the frame-number test, read from `lptr`. -/
def processFields (scan : Scanner) (thresh : ℚ) (lptr : Bytes) : Outcome :=
  match scan lptr with
  | none => Outcome.uninitialised
  | some (prob, filled) =>
    let lptr := lptr.drop filled
    if prob < thresh then Outcome.belowThreshold prob
    else
      match scan lptr with
      | none => Outcome.uninitialised
      | some (xmin, filled) =>
        let lptr := lptr.drop filled
        match scan lptr with
        | none => Outcome.uninitialised
        | some (ymin, filled) =>
          let lptr := lptr.drop filled
          match scan lptr with
          | none => Outcome.uninitialised
          | some (xmax, filled) =>
            let lptr := lptr.drop filled
            match scan lptr with
            | none => Outcome.uninitialised
            | some (ymax, _) => Outcome.drawn prob xmin ymin xmax ymax

/-- Lines 287–320 of `filter_frame` on the line just read. -/
def processLine (scan : Scanner) (offset : Int) (thresh : ℚ) (lastfr : Int) (line : Bytes) :
    Outcome :=
  match scan line with
  | none => Outcome.uninitialised
  | some (currfr, filled) =>
    let lptr := line.drop filled
    let currfr := currfr + offset
    let currfr := if currfr < 0 then 0 else currfr
    if toInt currfr ≠ lastfr then Outcome.mismatch
    else processFields scan thresh lptr

/-- Whether the loop goes on to the next `fgets` after this outcome. -/
def Outcome.continues : Outcome → Bool
  | Outcome.belowThreshold _ => true
  | Outcome.drawn _ _ _ _ _ => true
  | _ => false

/-- The loop `while (fgets(line, sizeof(line), s->afile)) { ... }` of
`filter_frame` with the stream at `pos`: every line read, in order, with what
was done with it.  Each pass consumes at least one byte, so
`file.length + 1` passes (the `fuel` given by `filter_frame`) always suffice. -/
def cursorLoop (scan : Scanner) (file : Bytes) (offset : Int) (thresh : ℚ) (lastfr : Int) :
    Nat → Nat → List (Bytes × Outcome)
  | 0, _ => []
  | fuel + 1, pos =>
    match fgets 256 file pos with
    | none => []
    | some line =>
      let o := processLine scan offset thresh lastfr line
      if o.continues then (line, o) :: cursorLoop scan file offset thresh lastfr fuel (pos + line.length)
      else [(line, o)]

/-- A call into OpenCV that writes into the frame. -/
inductive DrawCall where
  /-- Call `cvRectangle(&inimg, cvPoint(x1, y1), cvPoint(x2, y2), ...)`. -/
  | cvRectangle (x1 y1 x2 y2 : Int)
  /-- Call `cvPutText(&inimg, text, cvPoint(x, y), ...)`, `text` printed from `prob`. -/
  | cvPutText (prob : ℚ) (x y : Int)
  deriving DecidableEq

/-- Lines 318–320: the drawing calls made for one line. -/
def drawCalls : Outcome → List DrawCall
  | Outcome.drawn prob xmin ymin xmax ymax =>
    [DrawCall.cvRectangle (toInt (xmin * 2)) (toInt (ymin * 2)) (toInt (xmax * 2)) (toInt (ymax * 2)),
     DrawCall.cvPutText prob (toInt xmin) (toInt (ymin - 3))]
  | _ => []

/-- The fields of `DrawBBoxContext` used after `init`. -/
structure DrawBBoxContext where
  thresh : ℚ
  afile : Bytes
  offset : Int
  frpos : List Int

/-- Observable effect of one `filter_frame` call. -/
structure FrameResult where
  /-- Argument of the `fseek` call at line 281, `none` when it is not made. -/
  seek : Option Int
  /-- Lines obtained from `fgets`, in order, with what the loop did with each. -/
  reads : List (Bytes × Outcome)
  /-- Drawing calls made on the frame before it is passed to `ff_filter_frame`. -/
  draws : List DrawCall
  deriving DecidableEq

/-- Function `filter_frame`, given the value of `frame_number` computed at
line 272.  `none` when `frame_number - 1` is not an index of `frpos` (the read
at line 278 is then out of bounds). -/
def filter_frame (scan : Scanner) (s : DrawBBoxContext) (frame_number : Int) : Option FrameResult :=
  if frame_number - 1 < 0 then none
  else
    match s.frpos[(frame_number - 1).toNat]? with
    | none => none
    | some p =>
      if p < 0 then some { seek := none, reads := [], draws := [] }
      else
        let reads := cursorLoop scan s.afile s.offset s.thresh frame_number
          (s.afile.length + 1) p.toNat
        some { seek := some p, reads := reads, draws := (reads.map (fun r => drawCalls r.2)).flatten }

/-! ## A scanner for plain decimal text -/

/-- White space as skipped by `sscanf`. -/
def isSpace (c : Char) : Bool :=
  c == ' ' || c == '\n' || c == '\t' || c == '\r'

/-- Value of a string of decimal digits. -/
def digitsVal (ds : Bytes) : Nat := ds.foldl (fun acc c => 10 * acc + (c.toNat - 48)) 0

/-- Reading of `sscanf(p, "%f %n", ...)` on plain decimal text: optional white
space, optional sign, digits with an optional fraction, then the white space
matched by the blank of the format.  Exponents and the special spellings of
`strtod` are not covered. -/
def scanDecimal : Scanner := fun s =>
  let s1 := s.dropWhile isSpace
  let neg := s1.head? == some '-'
  let s2 := if s1.head? == some '-' || s1.head? == some '+' then s1.tail else s1
  let ip := s2.takeWhile Char.isDigit
  let s3 := s2.dropWhile Char.isDigit
  let fp := if s3.head? == some '.' then s3.tail.takeWhile Char.isDigit else []
  let s4 := if s3.head? == some '.' then s3.tail.dropWhile Char.isDigit else s3
  if ip.isEmpty && fp.isEmpty then none
  else
    let q : ℚ := mkRat (digitsVal (ip ++ fp)) (10 ^ fp.length)
    some (if neg then -q else q, s.length - (s4.dropWhile isSpace).length)

/-- Scenario A of the specification: two detections and the trailer `2`. -/
def scenarioA : Bytes := "1 0.9 10 10 50 50\n2 0.95 0 0 5 5\n2".toList

/-! ## Logs seen as lines -/

/-- A line of the log: its text, line break included, and the integer frame
number that leads it. -/
structure Row where
  text : Bytes
  raw : Int
  deriving DecidableEq

/-- The file made of the given lines. -/
def fileOf (rows : List Row) : Bytes := (rows.map Row.text).flatten

/-- The text is one that `fgets` with the 256-byte buffer delivers whole: not
empty, at most 255 bytes, no line break before its last byte, and ending in a
line break unless it is the last line of the file. -/
def LineOK (l : Bytes) (isLast : Bool) : Prop :=
  l ≠ [] ∧ l.length ≤ 255 ∧ (∀ c ∈ l.dropLast, c ≠ '\n') ∧ (isLast = false → l.getLast? = some '\n')

/-- A log of well-formed lines with integer frame numbers: every line is
delivered whole by `fgets` and `sscanf` reads `raw` at its start. -/
def LogOK (scan : Scanner) : List Row → Prop
  | [] => True
  | r :: rs => LineOK r.text rs.isEmpty ∧ (scan r.text).map Prod.fst = some (r.raw : ℚ) ∧
      LogOK scan rs

/-- Corrected frame id of a line as the scanning loop of `init` computes it
(lines 161–162). -/
def Row.id (offset : Int) (r : Row) : Int := r.raw - 1 + offset

/-- The scanning loop of `init` read off the lines of the log instead of the
bytes of the file; `none` stands for a loop that reaches the end of the file
with `currfr < nof` still true. -/
def indexRows (offset nof : Int) : List Row → ScanState → Option ScanState
  | [], st => if st.currfr < nof then none else some st
  | r :: rs, st =>
    if st.currfr < nof then
      if r.id offset ≥ nof then
        some { st with pos := st.pos + r.text.length, line := r.text, currfr := r.raw }
      else indexRows offset nof rs
        { pos := st.pos + r.text.length, line := r.text, currfr := r.raw, last := r.id offset,
          lines := st.lines + 1,
          frpos := if st.last ≠ r.id offset ∧ r.id offset ≥ 0
            then st.frpos.set (r.id offset).toNat st.pos else st.frpos }
    else some st

/-- The loop state in which a further pass at end of file changes nothing but
the line count: `line` still holds the line `currfr` was read from and `last`
is its id. -/
def Settled (scan : Scanner) (offset nof : Int) (st : ScanState) : Prop :=
  st.last = toInt st.currfr - 1 + offset ∧ st.last < nof ∧
    ∀ v k, scan st.line = some (v, k) → v = st.currfr

instance (l : Bytes) (isLast : Bool) : Decidable (LineOK l isLast) := by
  unfold LineOK
  exact inferInstance

instance (scan : Scanner) : (rows : List Row) → Decidable (LogOK scan rows)
  | [] => isTrue trivial
  | r :: rs =>
    have : Decidable (LogOK scan rs) := instDecidableLogOK scan rs
    by unfold LogOK; exact inferInstance

/-! ## The Frame Index Builder as the specification words it -/

/-- The lines of Scenario A. -/
def scenarioARows : List Row :=
  [⟨"1 0.9 10 10 50 50\n".toList, 1⟩, ⟨"2 0.95 0 0 5 5\n".toList, 2⟩, ⟨"2".toList, 2⟩]

/-- The state in which the scanning loop of `init` is left on Scenario A with
offset -1. -/
def scenarioCFinal : ScanState :=
  { pos := 33, line := "2 0.95 0 0 5 5\n".toList, currfr := 2, last := 0, lines := 2,
    frpos := [18, -1] }

/-- A log of four detections on frames 1 to 4, read with offset -1: the file is
shorter than 90 bytes, so `init` takes the number after its first line break,
2, as the frame count. -/
def lateRows : List Row :=
  [⟨"1 0.9 1 1 2 2\n".toList, 1⟩, ⟨"2 0.9 1 1 2 2\n".toList, 2⟩,
   ⟨"3 0.9 1 1 2 2\n".toList, 3⟩, ⟨"4 0.9 1 1 2 2\n".toList, 4⟩]

/-- A log whose text after the first line break is not a number. -/
def notANumber : Bytes := "1 0.9 10 10 50 50\nabc".toList

/-- A log whose trailer is the number 0. -/
def zeroTrailer : Bytes := "1 0.9 10 10 50 50\n0\n".toList

/-- A log of a single detection on frame 1. -/
def oneLine : Bytes := "1 0.9 10 10 50 50\n".toList

/-- Every entry of an index is `-1` or a byte offset such that, if `fgets`
delivers a line there and `sscanf` reads a number at its start, the id the
scanning loop of `init` computes from that number is the position of the
entry. -/
def EntryOK (scan : Scanner) (file : Bytes) (offset : Int) (frpos : List Int) : Prop :=
  ∀ (f : Nat) (p : Int), frpos[f]? = some p →
    p = -1 ∨ (0 ≤ p ∧ ∀ (line : Bytes) (v : ℚ) (k : Nat), fgets 256 file p.toNat = some line →
      scan line = some (v, k) → toInt v - 1 + offset = (f : Int))

/-! ## Reading the file line by line -/

theorem toInt_intCast (n : Int) : toInt (n : ℚ) = n := by
  simp [toInt]

theorem fgetsAux_chunk (n : Nat) (l rest : Bytes) (hlen : l.length ≤ n)
    (hnl : ∀ c ∈ l.dropLast, c ≠ '\n') (hend : l.getLast? = some '\n' ∨ rest = []) :
    fgetsAux n (l ++ rest) = l := by
  induction l generalizing n with
  | nil =>
    rcases hend with h | h
    · simp at h
    · subst h; cases n <;> simp [fgetsAux]
  | cons c cs ih =>
    cases n with
    | zero => simp at hlen
    | succ n =>
      simp only [List.cons_append, fgetsAux]
      cases cs with
      | nil =>
        rcases hend with h | h
        · simp at h; subst h; simp
        · subst h
          by_cases hc : c = '\n'
          · simp [hc]
          · simp [hc]; cases n <;> simp [fgetsAux]
      | cons d ds =>
        have hc : c ≠ '\n' := hnl c (by simp [List.dropLast])
        simp only [hc, if_false]
        congr 1
        apply ih
        · simpa using hlen
        · intro x hx; apply hnl; simp [List.dropLast] at hx ⊢; right; exact hx
        · simpa [List.getLast?] using hend

theorem fileOf_cons (r : Row) (rs : List Row) : fileOf (r :: rs) = r.text ++ fileOf rs := by
  simp [fileOf]

theorem fgets_row {scan : Scanner} {file : Bytes} {pos : Nat} {r : Row} {rs : List Row}
    (hok : LogOK scan (r :: rs)) (hfile : file.drop pos = fileOf (r :: rs)) :
    fgets 256 file pos = some r.text ∧ file.drop (pos + r.text.length) = fileOf rs := by
  obtain ⟨⟨hne, hlen, hnl, hend⟩, -, -⟩ := hok
  constructor
  · unfold fgets
    rw [hfile, fileOf_cons, fgetsAux_chunk 255 r.text (fileOf rs) hlen hnl]
    · cases h : r.text with
      | nil => exact absurd h hne
      | cons c cs => rfl
    · cases rs with
      | nil => right; rfl
      | cons r2 rs2 => left; exact hend rfl
  · rw [← List.drop_drop, hfile, fileOf_cons, List.drop_left]

theorem fgets_eof {file : Bytes} {pos : Nat} (hfile : file.drop pos = []) :
    fgets 256 file pos = none := by
  simp [fgets, hfile, fgetsAux]

theorem scan_raw {scan : Scanner} {r : Row} {rs : List Row} (hok : LogOK scan (r :: rs)) :
    ∃ k, scan r.text = some ((r.raw : ℚ), k) := by
  have h := hok.2.1
  cases hs : scan r.text with
  | none => simp [hs] at h
  | some vk =>
    obtain ⟨v, k⟩ := vk
    simp [hs] at h
    exact ⟨k, by rw [h]⟩

/-! ## The scanning loop of `init` on a log of well-formed lines -/

theorem scanStep_row {scan : Scanner} {file : Bytes} {offset nof : Int} {st : ScanState}
    {r : Row} {rs : List Row} (hok : LogOK scan (r :: rs))
    (hfile : file.drop st.pos = fileOf (r :: rs)) :
    scanStep scan file offset nof st =
      if r.id offset ≥ nof then
        Sum.inl { st with pos := st.pos + r.text.length, line := r.text, currfr := r.raw }
      else Sum.inr { pos := st.pos + r.text.length, line := r.text, currfr := r.raw,
                     last := r.id offset, lines := st.lines + 1,
                     frpos := if st.last ≠ r.id offset ∧ r.id offset ≥ 0
                       then st.frpos.set (r.id offset).toNat st.pos else st.frpos } := by
  obtain ⟨k, hk⟩ := scan_raw hok
  have hg := (fgets_row hok hfile).1
  simp only [scanStep, hg, Option.getD_some, hk, toInt_intCast, Row.id]

theorem scanStep_eof {scan : Scanner} {file : Bytes} {offset nof : Int} {st : ScanState}
    (hfile : file.drop st.pos = []) (hs : Settled scan offset nof st) :
    scanStep scan file offset nof st = Sum.inr { st with lines := st.lines + 1 } := by
  obtain ⟨hlast, hlt, hline⟩ := hs
  have hcur : (match scan st.line with
      | some (v, _) => v
      | none => st.currfr) = st.currfr := by
    cases h : scan st.line with
    | none => rfl
    | some vk => obtain ⟨v, k⟩ := vk; exact hline v k h
  have hnb : ¬ (st.last ≥ nof) := by omega
  simp only [scanStep, fgets_eof hfile, Option.getD_none, hcur]
  rw [← hlast]
  simp [hnb]

/-- At end of file a settled loop never stops. -/
theorem scanLoop_eof {scan : Scanner} {file : Bytes} {offset nof : Int} :
    ∀ (fuel : Nat) (st : ScanState), file.drop st.pos = [] → Settled scan offset nof st →
      st.currfr < nof → scanLoop scan file offset nof fuel st = none := by
  intro fuel
  induction fuel with
  | zero => intro st _ _ hlt; simp [scanLoop, hlt]
  | succ fuel ih =>
    intro st hfile hs hlt
    simp only [scanLoop, hlt, if_true, scanStep_eof hfile hs]
    exact ih _ hfile hs hlt

/-- Whatever the loop of `init` returns is what the line-by-line reading
says. -/
theorem scanLoop_sound {scan : Scanner} {file : Bytes} {offset nof : Int} :
    ∀ (fuel : Nat) (rows : List Row) (st res : ScanState),
      file.drop st.pos = fileOf rows → LogOK scan rows →
      (rows ≠ [] ∨ Settled scan offset nof st) →
      scanLoop scan file offset nof fuel st = some res →
      indexRows offset nof rows st = some res := by
  intro fuel
  induction fuel with
  | zero =>
    intro rows st res _ _ _ h
    by_cases hlt : st.currfr < nof
    · simp [scanLoop, hlt] at h
    · simp only [scanLoop, hlt, if_false] at h
      cases rows <;> simp only [indexRows, hlt, if_false] <;> exact h
  | succ fuel ih =>
    intro rows st res hfile hok hs h
    by_cases hlt : st.currfr < nof
    · cases rows with
      | nil =>
        have hset : Settled scan offset nof st := by
          rcases hs with h1 | h1
          · exact absurd rfl h1
          · exact h1
        rw [scanLoop_eof _ st hfile hset hlt] at h
        exact absurd h (by simp)
      | cons r rs =>
        simp only [scanLoop, hlt, if_true] at h
        rw [scanStep_row hok hfile] at h
        simp only [indexRows, hlt, if_true]
        by_cases hbr : r.id offset ≥ nof
        · simp only [hbr, if_true] at h ⊢
          exact h
        · simp only [hbr, if_false] at h ⊢
          refine ih rs _ res (fgets_row hok hfile).2 hok.2.2 (Or.inr ?_) h
          obtain ⟨k, hk⟩ := scan_raw hok
          refine ⟨by simp [toInt_intCast, Row.id], by simp only; omega, ?_⟩
          intro v k2 hv
          simp only at hv
          rw [hk] at hv
          simp at hv
          exact hv.1.symm
    · simp only [scanLoop, hlt, if_false] at h
      cases rows <;> simp only [indexRows, hlt, if_false] <;> exact h

/-! ## What the line-by-line reading stores in `frpos` -/

/-- A number is below its integer part plus one. -/
theorem lt_toInt_add_one (v : ℚ) : v < (toInt v : ℚ) + 1 := by
  have hden : (0 : ℚ) < v.den := by exact_mod_cast v.den_pos
  have h1 : (v.den : Int) * (v.num.tdiv v.den) + v.num.tmod v.den = v.num := Int.tdiv_add_tmod _ _
  have h2 : v.num.tmod v.den < v.den := Int.tmod_lt_of_pos _ (by exact_mod_cast v.den_pos)
  have h3 : v.num < (v.num.tdiv v.den + 1) * v.den := by nlinarith
  have h4 : (v.num : ℚ) < ((v.num.tdiv v.den : Int) + 1) * v.den := by exact_mod_cast h3
  unfold toInt
  calc v = (v.num : ℚ) / v.den := (Rat.num_div_den v).symm
    _ < ((v.num.tdiv v.den : Int) + 1) := by rw [div_lt_iff₀ hden]; exact h4

/-- The integer part of a number in `[0, 1)` is 0. -/
theorem toInt_eq_zero {x : ℚ} (h0 : 0 ≤ x) (h1 : x < 1) : toInt x = 0 := by
  have hnum : 0 ≤ x.num := Rat.num_nonneg.mpr h0
  have hlt : x.num < x.den := by
    have := Rat.num_div_den x
    have hden : (0 : ℚ) < x.den := by exact_mod_cast x.den_pos
    have h2 : (x.num : ℚ) / x.den < 1 := by rw [this]; exact h1
    rw [div_lt_one hden] at h2
    exact_mod_cast h2
  unfold toInt
  exact Int.tdiv_eq_zero_of_lt hnum hlt

/-- A line whose id as `init` computes it is negative is broken on by the
cursor whatever frame id `f ≥ 0` is asked for. -/
theorem processLine_negative_id {scan : Scanner} {line : Bytes} {v : ℚ} {k : Nat}
    (hs : scan line = some (v, k)) {offset : Int} (hneg : toInt v - 1 + offset < 0)
    (thresh : ℚ) {f : Int} (hf : 0 ≤ f) :
    processLine scan offset thresh (f + 1) line = Outcome.mismatch := by
  simp only [processLine, hs]
  have hx : toInt (if v + (offset : ℚ) < 0 then 0 else v + (offset : ℚ)) = 0 := by
    split
    · exact toInt_eq_zero (le_refl _) (by norm_num)
    · rename_i hge
      apply toInt_eq_zero (not_lt.mp hge)
      have h1 := lt_toInt_add_one v
      have h2 : (toInt v : ℚ) + offset ≤ 0 := by
        have : toInt v + offset ≤ 0 := by omega
        exact_mod_cast this
      linarith
  rw [hx]
  have : (0 : Int) ≠ f + 1 := by omega
  simp [this]

/-! ## The index of a log in non-decreasing frame order -/

/-- On the one-line log with frame count 5 the scanning loop of `init` reaches
the end of the file with `currfr < nof` and never comes to an end, whatever
the line buffer held and however many passes are allowed. -/
theorem buildIndex_oneLine (fuel : Nat) (line0 : Bytes) :
    buildIndex scanDecimal oneLine 0 5 line0 fuel = none := by
  have hok : LogOK scanDecimal [⟨oneLine, 1⟩] := by decide!
  cases h : buildIndex scanDecimal oneLine 0 5 line0 fuel with
  | none => rfl
  | some st =>
    have hfile : oneLine = fileOf [⟨oneLine, 1⟩] := by decide
    rw [hfile] at h
    have h2 := scanLoop_sound fuel [⟨oneLine, 1⟩] _ st (by simp) hok (Or.inl (by simp)) h
    simp [indexRows, Row.id] at h2

/-! ## The claims on single frames and single lines -/

/-- C8 — No-detection frames are untouched: whenever the index entry of frame
id `f` is `-1`, `filter_frame` (called with `frame_number = f + 1`) makes no
`fseek`, reads no line, makes no drawing call, and passes the frame on. -/
theorem no_detection_frame_untouched (scan : Scanner) (s : DrawBBoxContext) (f : Nat)
    (h : s.frpos[f]? = some (-1)) :
    filter_frame scan s ((f : Int) + 1) = some { seek := none, reads := [], draws := [] } := by
  have h0 : ¬ ((f : Int) + 1 - 1 < 0) := by omega
  have h1 : ((f : Int) + 1 - 1).toNat = f := by omega
  simp [filter_frame, h0, h1, h]

/-- C8 at frame id 0 of Scenario A, whose index entry is `-1`. -/
theorem no_detection_frame_untouched_witness :
    filter_frame scanDecimal (DrawBBoxContext.mk (1 / 2) scenarioA 0 [-1, 18]) (((0 : Nat) : Int) + 1) =
      some { seek := none, reads := [], draws := [] } :=
  no_detection_frame_untouched scanDecimal (DrawBBoxContext.mk (1 / 2) scenarioA 0 [-1, 18]) 0
    (by decide)

/-- C4 — Evaluation of `init` on malformed trailers.  (1) On a log of 90
bytes `x`, without any line break, `strchr` yields NULL and `init` runs into
undefined behaviour instead of returning an error.  (2) On the log
`notANumber`, whose text after the first line break is `abc`, nothing is
stored into `currfr`; with `7.0` left in that variable the test of line 136
passes and `init` goes on to allocate and to scan with `nof = 7`.  (3) On the
log `zeroTrailer`, whose trailer is the number 0, `init` returns the error,
as the claim says. -/
theorem malformed_trailer_not_rejected :
    init scanDecimal [] 0 0 (List.replicate 90 'x') 10 = some InitResult.undefined ∧
    readTrailer scanDecimal [] 7 notANumber = Trailer.frames 7 notANumber ∧
    init scanDecimal [] 0 0 zeroTrailer 10 = some InitResult.einval := by
  refine ⟨?_, ?_, ?_⟩
  · decide!
  · decide!
  · decide!

/-! ## The claims on the id of a line and on the entries of the index -/

/-- A pass of the scanning loop of `init` changes `frpos` at most at the id it
computes, which is then in `[0, nof)`, and keeps its length. -/
theorem scanStep_frpos (scan : Scanner) (file : Bytes) (offset nof : Int) (st : ScanState) :
    (Sum.elim id id (scanStep scan file offset nof st)).frpos.length = st.frpos.length ∧
    ∀ j : Nat, (Sum.elim id id (scanStep scan file offset nof st)).frpos[j]? ≠ st.frpos[j]? →
      (j : Int) < nof ∧
      (j : Int) = toInt (match scan ((fgets 256 file st.pos).getD st.line) with
        | some (v, _) => v
        | none => st.currfr) - 1 + offset ∧
      (Sum.elim id id (scanStep scan file offset nof st)).frpos[j]? = some (st.pos : Int) := by
  simp only [scanStep]
  split
  · simp
  · rename_i hbr
    simp only [Sum.elim_inr, id]
    split
    · rename_i hw
      refine ⟨by simp, ?_⟩
      intro j hj
      rw [List.getElem?_set] at hj ⊢
      split at hj
      · rename_i hjj
        split at hj
        · rename_i hlen
          rw [if_pos hjj, if_pos hlen]
          exact ⟨by omega, by omega, rfl⟩
        · rename_i hlen
          exact absurd (List.getElem?_eq_none (by omega)).symm hj
      · exact absurd rfl hj
    · exact ⟨rfl, fun j hj => absurd rfl hj⟩

theorem scanStep_entryOK (scan : Scanner) (file : Bytes) (offset nof : Int) (st : ScanState)
    (h : EntryOK scan file offset st.frpos) :
    EntryOK scan file offset (Sum.elim id id (scanStep scan file offset nof st)).frpos := by
  intro f p hp
  by_cases hch : (Sum.elim id id (scanStep scan file offset nof st)).frpos[f]? = st.frpos[f]?
  · exact h f p (hch ▸ hp)
  · obtain ⟨-, hid, hval⟩ := (scanStep_frpos scan file offset nof st).2 f hch
    rw [hval] at hp
    simp only [Option.some.injEq] at hp
    subst hp
    right
    refine ⟨Int.natCast_nonneg _, ?_⟩
    intro line v k hg hs
    simp only [Int.toNat_ofNat] at hg
    rw [hg, Option.getD_some, hs] at hid
    simp only at hid
    exact hid.symm

theorem scanLoop_entryOK {scan : Scanner} {file : Bytes} {offset nof : Int} :
    ∀ (fuel : Nat) (st res : ScanState), EntryOK scan file offset st.frpos →
      scanLoop scan file offset nof fuel st = some res →
      EntryOK scan file offset res.frpos ∧ res.frpos.length = st.frpos.length := by
  intro fuel
  induction fuel with
  | zero =>
    intro st res h hl
    simp only [scanLoop] at hl
    split at hl
    · simp at hl
    · simp at hl; subst hl; exact ⟨h, rfl⟩
  | succ fuel ih =>
    intro st res h hl
    simp only [scanLoop] at hl
    split at hl
    · have h1 := scanStep_entryOK scan file offset nof st h
      have h2 := (scanStep_frpos scan file offset nof st).1
      cases hs : scanStep scan file offset nof st with
      | inl st1 =>
        rw [hs] at hl h1 h2
        simp at hl; subst hl
        exact ⟨h1, h2⟩
      | inr st1 =>
        rw [hs] at hl h1 h2
        simp only [Sum.elim_inr, id] at h1 h2
        have := ih st1 res h1 hl
        exact ⟨this.1, this.2.trans h2⟩
    · simp at hl; subst hl; exact ⟨h, rfl⟩

/-- C7 — Negative ids are never stored: for every log, offset and frame count,
whatever the buffer held, (1) a pass of the scanning loop of `init` changes
`frpos` only at a position in `[0, nof)`, and a pass over a line whose
corrected id (the integer part of its leading number, minus 1, plus the
offset) is negative changes nothing; (2) every entry of the index built by
`init` other than `-1` sits at a position `f` below `nof` and is a byte
offset, and a line read there has corrected id `f`; (3) no entry holds the
offset of a line whose corrected id is negative; (4) asked for any frame id
`f ≥ 0` (`frame_number = f + 1`), the cursor loop of `filter_frame` breaks on
a line whose corrected id is negative instead of taking it as a record. -/
theorem negative_ids_never_stored (scan : Scanner) (file : Bytes) (offset nof : Int)
    (line0 : Bytes) (fuel : Nat) (st : ScanState)
    (hbuild : buildIndex scan file offset nof line0 fuel = some st) :
    (∀ st0 : ScanState,
      (∀ j : Nat, (Sum.elim id id (scanStep scan file offset nof st0)).frpos[j]? ≠ st0.frpos[j]? →
        (j : Int) < nof) ∧
      (∀ (line : Bytes) (v : ℚ) (k : Nat), fgets 256 file st0.pos = some line →
        scan line = some (v, k) → toInt v - 1 + offset < 0 →
        (Sum.elim id id (scanStep scan file offset nof st0)).frpos = st0.frpos)) ∧
    (∀ (f : Nat) (p : Int), st.frpos[f]? = some p → p ≠ -1 → (f : Int) < nof ∧ 0 ≤ p ∧
      ∀ (line : Bytes) (v : ℚ) (k : Nat), fgets 256 file p.toNat = some line →
        scan line = some (v, k) → toInt v - 1 + offset = (f : Int)) ∧
    (∀ (pos : Nat) (line : Bytes) (v : ℚ) (k : Nat), fgets 256 file pos = some line →
      scan line = some (v, k) → toInt v - 1 + offset < 0 →
      ∀ f : Nat, st.frpos[f]? ≠ some (pos : Int)) ∧
    (∀ (line : Bytes) (v : ℚ) (k : Nat), scan line = some (v, k) → toInt v - 1 + offset < 0 →
      ∀ (thresh : ℚ) (f : Int), 0 ≤ f →
        processLine scan offset thresh (f + 1) line = Outcome.mismatch) := by
  have h0 : EntryOK scan file offset (List.replicate nof.toNat (-1)) := by
    intro f p hp
    left
    simp only [List.getElem?_replicate] at hp
    split at hp
    · simp at hp; exact hp.symm
    · simp at hp
  obtain ⟨hent, hlen⟩ := scanLoop_entryOK fuel _ st h0 hbuild
  simp only [List.length_replicate] at hlen
  refine ⟨?_, ?_, ?_, ?_⟩
  · intro st0
    refine ⟨fun j hj => ((scanStep_frpos scan file offset nof st0).2 j hj).1, ?_⟩
    intro line v k hg hs hneg
    apply List.ext_getElem?
    intro j
    by_contra hj
    have := ((scanStep_frpos scan file offset nof st0).2 j hj).2.1
    rw [hg, Option.getD_some, hs] at this
    simp only at this
    omega
  · intro f p hf hp
    have hlt : f < st.frpos.length := by
      by_contra hge
      rw [List.getElem?_eq_none (by omega)] at hf
      exact absurd hf (by simp)
    rcases hent f p hf with h1 | h1
    · exact absurd h1 hp
    · exact ⟨by omega, h1.1, h1.2⟩
  · intro pos line v k hg hs hneg f hf
    rcases hent f _ hf with h1 | h1
    · omega
    · have := h1.2 line v k (by simpa using hg) hs
      omega
  · intro line v k hs hneg thresh f hf0
    exact processLine_negative_id hs hneg thresh hf0

/-- C7 at Scenario C: Scenario A read with offset -1, so that the first line,
at byte 0, has corrected id -1.  No entry of the index holds offset 0, and
the cursor breaks on that line for every frame id `f ≥ 0`. -/
theorem negative_ids_never_stored_witness :
    buildIndex scanDecimal scenarioA (-1) 2 scenarioA 10 = some scenarioCFinal ∧
    (∀ f : Nat, scenarioCFinal.frpos[f]? ≠ some ((0 : Nat) : Int)) ∧
    (∀ (thresh : ℚ) (f : Int), 0 ≤ f →
      processLine scanDecimal (-1) thresh (f + 1) "1 0.9 10 10 50 50\n".toList =
        Outcome.mismatch) :=
  ⟨by decide!,
    (negative_ids_never_stored scanDecimal scenarioA (-1) 2 scenarioA 10 scenarioCFinal
      (by decide!)).2.2.1 0 "1 0.9 10 10 50 50\n".toList 1 2 (by decide!) (by decide!) (by decide!),
    (negative_ids_never_stored scanDecimal scenarioA (-1) 2 scenarioA 10 scenarioCFinal
      (by decide!)).2.2.2 "1 0.9 10 10 50 50\n".toList 1 2 (by decide!) (by decide!)⟩

/-! ## The claims on the run of a frame and on the end of the scan -/

/-- The loop of `init` from any state at the start of a line: it makes one
pass per line up to and including the first line whose raw frame number or
corrected id is at least `nof`, and is then left. -/
theorem scanLoop_stop {scan : Scanner} {file : Bytes} {offset nof : Int} :
    ∀ (pre : List Row) (r : Row) (post : List Row) (st : ScanState),
      file.drop st.pos = fileOf (pre ++ r :: post) → LogOK scan (pre ++ r :: post) →
      st.currfr < nof → (∀ x ∈ pre, x.raw < nof ∧ x.id offset < nof) →
      (nof ≤ r.raw ∨ nof ≤ r.id offset) →
      ∃ res, (∀ fuel, pre.length + 1 ≤ fuel → scanLoop scan file offset nof fuel st = some res) ∧
        (∀ fuel, fuel ≤ pre.length → scanLoop scan file offset nof fuel st = none) ∧
        res.pos = st.pos + (fileOf (pre ++ [r])).length ∧
        res.lines = st.lines + (if nof ≤ r.id offset then pre.length else pre.length + 1) ∧
        ((∀ x ∈ pre ++ [r], x.id offset < 0 ∨ nof ≤ x.id offset) → res.frpos = st.frpos) := by
  intro pre
  induction pre with
  | nil =>
    intro r post st hfile hok hcur _ hstop
    have hstep := @scanStep_row scan file offset nof st r post hok hfile
    by_cases hbr : r.id offset ≥ nof
    · simp only [hbr, if_true] at hstep
      refine ⟨{ st with pos := st.pos + r.text.length, line := r.text, currfr := r.raw },
        ?_, ?_, ?_, ?_, ?_⟩
      · intro fuel hfuel
        cases fuel with
        | zero => simp at hfuel
        | succ fuel => simp only [scanLoop, hcur, if_true, hstep]
      · intro fuel hfuel
        have : fuel = 0 := by simpa using hfuel
        subst this
        simp [scanLoop, hcur]
      · simp [fileOf]
      · have : nof ≤ r.id offset := hbr
        simp [this]
      · intro _; rfl
    · simp only [hbr, if_false] at hstep
      have hraw : nof ≤ r.raw := by
        rcases hstop with h | h
        · exact h
        · exact absurd h hbr
      have hnl : ¬ ((r.raw : ℚ) < nof) := by
        intro hc; have : r.raw < nof := by exact_mod_cast hc
        omega
      refine ⟨{ pos := st.pos + r.text.length, line := r.text, currfr := r.raw,
                last := r.id offset, lines := st.lines + 1,
                frpos := if st.last ≠ r.id offset ∧ r.id offset ≥ 0
                  then st.frpos.set (r.id offset).toNat st.pos else st.frpos },
        ?_, ?_, ?_, ?_, ?_⟩
      · intro fuel hfuel
        cases fuel with
        | zero => simp at hfuel
        | succ fuel =>
          simp only [scanLoop, hcur, if_true, hstep]
          cases fuel <;> simp only [scanLoop, hnl, if_false]
      · intro fuel hfuel
        have : fuel = 0 := by simpa using hfuel
        subst this
        simp [scanLoop, hcur]
      · simp [fileOf]
      · have : ¬ nof ≤ r.id offset := hbr
        simp [this]
      · intro hall
        have h1 := hall r (by simp)
        have hw : ¬ (st.last ≠ r.id offset ∧ r.id offset ≥ 0) := by omega
        simp only [hw, if_false]
  | cons y pre ih =>
    intro r post st hfile hok hcur hpre hstop
    have hy := hpre y (by simp)
    have hstep := @scanStep_row scan file offset nof st y (pre ++ r :: post) hok hfile
    have hbr : ¬ (y.id offset ≥ nof) := by omega
    simp only [hbr, if_false] at hstep
    have hcur2 : ((y.raw : ℚ) < nof) := by exact_mod_cast hy.1
    obtain ⟨res, h1, h2, h3, h4, h5⟩ := ih r post
      { pos := st.pos + y.text.length, line := y.text, currfr := y.raw,
        last := y.id offset, lines := st.lines + 1,
        frpos := if st.last ≠ y.id offset ∧ y.id offset ≥ 0
          then st.frpos.set (y.id offset).toNat st.pos else st.frpos }
      (fgets_row hok hfile).2 hok.2.2 hcur2
      (fun x hx => hpre x (by simp [hx])) hstop
    refine ⟨res, ?_, ?_, ?_, ?_, ?_⟩
    · intro fuel hfuel
      cases fuel with
      | zero => simp at hfuel
      | succ fuel =>
        simp only [scanLoop, hcur, if_true, hstep]
        exact h1 fuel (by simpa using hfuel)
    · intro fuel hfuel
      cases fuel with
      | zero => simp [scanLoop, hcur]
      | succ fuel =>
        simp only [scanLoop, hcur, if_true, hstep]
        exact h2 fuel (by simpa using hfuel)
    · rw [h3]
      simp only [List.cons_append, fileOf_cons, List.length_append]
      omega
    · rw [h4]
      simp only [List.length_cons]
      split <;> omega
    · intro hall
      rw [h5 (fun x hx => hall x (by simp at hx ⊢; exact Or.inr hx))]
      have h6 := hall y (by simp)
      have hw : ¬ (st.last ≠ y.id offset ∧ y.id offset ≥ 0) := by omega
      simp only [hw, if_false]

/-- C10, as stated, fails.  (1) On the four-line log `lateRows` with offset -1
and frame count 2 (the count `init` reads from that file), the loop is left
after the second line, with the stream at byte 28 and two lines counted,
although the third line has corrected id 1, below the frame count, and the
end of the file has not been reached.  (2) On the log `oneLine`, a single
line with raw frame number 1, and frame count 5 the loop never comes to an
end: no number of passes brings a result. -/
theorem index_scan_stop_counterexample :
    readTrailer scanDecimal [] 0 (fileOf lateRows) = Trailer.frames 2 (fileOf lateRows) ∧
    buildIndex scanDecimal (fileOf lateRows) (-1) 2 (fileOf lateRows) 10 =
      some { pos := 28, line := "2 0.9 1 1 2 2\n".toList, currfr := 2, last := 0, lines := 2,
             frpos := [14, -1] } ∧
    lateRows.map (Row.id (-1)) = [-1, 0, 1, 2] ∧
    ¬ ∃ fuel, (buildIndex scanDecimal oneLine 0 5 oneLine fuel).isSome = true := by
  refine ⟨by decide!, by decide!, by decide, ?_⟩
  rintro ⟨fuel, h⟩
  rw [buildIndex_oneLine fuel oneLine] at h
  exact absurd h (by decide)

/-- C10, amended — the scan of `init` over a log of well-formed lines that
has a line whose raw frame number or corrected id is at least `nof`: the loop
comes to an end; it makes exactly one pass, reading one line, for each line
up to and including the first such line (one pass fewer brings no result),
and leaves the stream just after that line; and when none of the lines read
has a corrected id in `[0, nof)`, every entry of the index is `-1`. -/
theorem index_scan_terminates (scan : Scanner) (pre : List Row) (r : Row) (post : List Row)
    (offset nof : Int) (line0 : Bytes)
    (hok : LogOK scan (pre ++ r :: post)) (hnof : 0 < nof)
    (hpre : ∀ x ∈ pre, x.raw < nof ∧ x.id offset < nof)
    (hstop : nof ≤ r.raw ∨ nof ≤ r.id offset) :
    ∃ st, (∀ fuel, pre.length + 1 ≤ fuel →
          buildIndex scan (fileOf (pre ++ r :: post)) offset nof line0 fuel = some st) ∧
      (∀ fuel, fuel ≤ pre.length →
          buildIndex scan (fileOf (pre ++ r :: post)) offset nof line0 fuel = none) ∧
      st.pos = (fileOf (pre ++ [r])).length ∧
      st.lines = (if nof ≤ r.id offset then pre.length else pre.length + 1) ∧
      ((∀ x ∈ pre ++ [r], x.id offset < 0 ∨ nof ≤ x.id offset) →
        st.frpos = List.replicate nof.toNat (-1)) := by
  have hcur : ((0 : ℚ) < nof) := by exact_mod_cast hnof
  obtain ⟨res, h1, h2, h3, h4, h5⟩ := @scanLoop_stop scan
    (fileOf (pre ++ r :: post)) offset nof pre r post
    { pos := 0, line := line0, currfr := 0, last := 0, lines := 0,
      frpos := List.replicate nof.toNat (-1) } (by simp) hok hcur hpre hstop
  exact ⟨res, h1, h2, by simpa using h3, by simpa using h4, h5⟩

/-- C10, amended, at Scenario A with offset -5 and frame count 2: the scan
stops after the second line, in its second pass, at byte 33, and the index
stays all `-1`. -/
theorem index_scan_terminates_witness :
    ∃ st, buildIndex scanDecimal (fileOf scenarioARows) (-5) 2 [] 2 = some st ∧
      buildIndex scanDecimal (fileOf scenarioARows) (-5) 2 [] 1 = none ∧
      st.pos = 33 ∧ st.lines = 2 ∧ st.frpos = [-1, -1] := by
  obtain ⟨st, h1, h2, h3, h4, h5⟩ :=
    index_scan_terminates scanDecimal [⟨"1 0.9 10 10 50 50\n".toList, 1⟩]
      ⟨"2 0.95 0 0 5 5\n".toList, 2⟩ [⟨"2".toList, 2⟩] (-5) 2 [] (by decide!) (by decide)
      (by intro x hx; simp only [List.mem_singleton] at hx; subst hx; decide)
      (by decide)
  exact ⟨st, h1 2 (by decide), h2 1 (by decide), h3.trans (by decide), h4.trans (by decide),
    (h5 (by decide)).trans (by decide)⟩

/-! ## The claims on the index as a whole and on retrieval end to end -/

end DrawBBox
